import Mathlib

/-!
Verification of the core subtitle algorithms of the Audio_Subtitler repository:
the cue segmenter, SRT timestamp formatter, line wrapper and SRT writers
(`src/backend/Extractor/script_generator.py`), and the translation aligner
(`src/backend/translator/translation.py`).

Python strings are modelled as Lean `String`s, and the Python string
operations used by the code (`str.split()`, `" ".join`, `str.strip`,
`str.startswith`, `str.endswith`, slicing) are modelled by executable
functions over the underlying character lists.  Python floats are modelled
as exact rationals (`ℚ`); facts about binary floating point rounding are
outside this embedding.  Character classes (`isupper`, `islower`,
whitespace) follow Lean's `Char` predicates, which agree with Python on
ASCII.
-/

/-- Whitespace test used to model Python's `str.split()` / `str.strip()`. -/
def wsChar (c : Char) : Bool := c.isWhitespace

/-- Model of Python `str.split()` (split on whitespace runs, dropping empty
pieces): accumulator holds the current token reversed. -/
def splitWsAux (acc : List Char) : List Char → List (List Char)
  | [] => if acc = [] then [] else [acc.reverse]
  | c :: cs =>
    if wsChar c then
      if acc = [] then splitWsAux [] cs else acc.reverse :: splitWsAux [] cs
    else splitWsAux (c :: acc) cs

/-- Python `s.split()` on a character list. -/
def pySplitL (l : List Char) : List (List Char) := splitWsAux [] l

/-- Python `s.split()` on a string. -/
def pySplit (s : String) : List String := (pySplitL s.data).map fun l => ⟨l⟩

/-- Python `sep.join(pieces)`. -/
def pyJoin (sep : String) : List String → String
  | [] => ""
  | [s] => s
  | s :: rest => s ++ sep ++ pyJoin sep rest

/-- Python `s.strip()` on a character list: drop whitespace from both ends. -/
def pyStripL (l : List Char) : List Char :=
  ((l.dropWhile (wsChar ·)).reverse.dropWhile (wsChar ·)).reverse

/-- Python `s.strip()` on a string. -/
def pyStrip (s : String) : String := ⟨pyStripL s.data⟩

/-- Python `s.startswith(pre)`. -/
def pyStartsWith (s pre : String) : Bool := pre.data.isPrefixOf s.data

/-- Python `s.endswith(suf)`. -/
def pyEndsWith (s suf : String) : Bool := suf.data.isSuffixOf s.data

/-- Python `s.split(sep)` for a single-character separator (keeps empty
pieces, unlike `str.split()` with no argument). -/
def splitCh (sep : Char) : List Char → List (List Char)
  | [] => [[]]
  | c :: cs =>
    if c = sep then [] :: splitCh sep cs
    else
      match splitCh sep cs with
      | [] => [[c]]
      | t :: ts => (c :: t) :: ts

/-- The lines of a string, in the sense of splitting on `'\n'`. -/
def lineSplit (s : String) : List String := (splitCh '\n' s.data).map fun l => ⟨l⟩

/-- `len(s.split())`: number of whitespace-separated tokens of a string. -/
def tokenCount (s : String) : Nat := (pySplitL s.data).length

/-- A string that is nonempty and contains no whitespace (forms exactly one
token under `str.split()`). -/
def strOKB (s : String) : Bool := !s.data.isEmpty && s.data.all (fun c => !wsChar c)

/-! ## Data model of the segmenter (`script_generator.py`)

A word-level timestamp entry as produced by the transcription collaborator:
`{"word": ..., "start": ..., "end": ..., "speaker": ...?}`.  The `speaker`
key may be absent (`Option`).  The Python dict key `end` is a Lean keyword,
so the field is named `stop`. -/

structure TimedWord where
  word : String
  start : ℚ
  stop : ℚ
  speaker : Option String
deriving DecidableEq, Repr

/-- A subtitle cue as built by `group_into_sentences`:
`{"start": ..., "end": ..., "text": "Speaker: joined words"}`. -/
structure Cue where
  start : ℚ
  stop : ℚ
  text : String
deriving DecidableEq, Repr

/-- The loop state of `group_into_sentences`: the emitted subtitles plus the
accumulator variables `current_words`, `start_time`, `last_end_time`,
`speaker` (all `None` before the first word). -/
structure SegState where
  subtitles : List Cue
  current_words : List TimedWord
  start_time : Option ℚ
  last_end_time : Option ℚ
  speaker : Option String
deriving Repr

def initSegState : SegState := ⟨[], [], none, none, none⟩

/-- `w.endswith(('.', '!', '?', ','))` from the re-split scan. -/
def endsSentencePunct (s : String) : Bool :=
  pyEndsWith s "." || pyEndsWith s "!" || pyEndsWith s "?" || pyEndsWith s ","

/-- Index of the most recent buffered word ending in sentence punctuation:
the Python backward scan `for i in range(len(current_words)-1, -1, -1)`. -/
def lastPunctIdx : List TimedWord → Option Nat
  | [] => none
  | w :: rest =>
    match lastPunctIdx rest with
    | some i => some (i + 1)
    | none => if endsSentencePunct w.word then some 0 else none

/-- The `flush()` closure: if `current_words` is nonempty, append a subtitle
`{"start": start_time, "end": last_end_time, "text": f"{speaker}: {text}"}`
with `text = " ".join(w["word"] for w in current_words).strip()`.
When the buffer is nonempty the three `Option` fields are always set; the
`getD` defaults mirror what Python would render for an unset variable and
are unreachable on those calls. -/
def flushSubs (st : SegState) : List Cue :=
  if st.current_words.isEmpty then st.subtitles
  else
    let text := pyStrip (pyJoin " " (st.current_words.map (·.word)))
    st.subtitles ++
      [{ start := st.start_time.getD 0,
         stop := st.last_end_time.getD 0,
         text := st.speaker.getD "None" ++ ": " ++ text }]

/-- The start of each loop iteration: `if start_time is None: start_time =
w["start"]; speaker = w.get("speaker", "Unknown")`. -/
def segInit (st : SegState) (w : TimedWord) : SegState :=
  { st with
    start_time := some (st.start_time.getD w.start)
    speaker := if st.start_time.isNone then some (w.speaker.getD "Unknown") else st.speaker }

/-- Python `last_end_time or w["start"]`: `or` takes the right operand
whenever the left one is *falsy*, which for a float-or-None variable means
both `None` and `0.0`. -/
def pyOr (v : Option ℚ) (d : ℚ) : ℚ :=
  match v with
  | none => d
  | some q => if q = 0 then d else q

/-- The boundary test of the loop: `time_gap > pause_threshold or
w.get("speaker") != speaker or duration_so_far >= max_duration`, with
`time_gap = w["start"] - (last_end_time or w["start"])` and
`duration_so_far = (last_end_time or w["start"]) - start_time` computed on
the just-initialised variables (`start_time` is guarded by an explicit
`is None` test in the source, `last_end_time` by truthiness). -/
def segBoundary (pause_threshold max_duration : ℚ) (st : SegState) (w : TimedWord) : Prop :=
  w.start - pyOr st.last_end_time w.start > pause_threshold ∨
  w.speaker ≠ (segInit st w).speaker ∨
  pyOr st.last_end_time w.start - (st.start_time.getD w.start) ≥ max_duration

instance (p d : ℚ) (st : SegState) (w : TimedWord) : Decidable (segBoundary p d st w) := by
  unfold segBoundary; exact inferInstance

/-- `duration_so_far >= max_duration and current_words` (the guard of the
punctuation re-split attempt), with `duration_so_far` computed from
`(last_end_time or w["start"])` exactly as in `segBoundary`. -/
def segTooLong (max_duration : ℚ) (st : SegState) (w : TimedWord) : Prop :=
  pyOr st.last_end_time w.start - (st.start_time.getD w.start) ≥ max_duration ∧
  st.current_words ≠ []

instance (d : ℚ) (st : SegState) (w : TimedWord) : Decidable (segTooLong d st w) := by
  unfold segTooLong; exact inferInstance

/-- One iteration of the `for w in words` loop of `group_into_sentences`. -/
def segStep (pause_threshold max_duration : ℚ) (st : SegState) (w : TimedWord) : SegState :=
  let st1 := segInit st w
  if segBoundary pause_threshold max_duration st w then
    if segTooLong max_duration st w then
      match lastPunctIdx st.current_words with
      | some i =>
        { subtitles := flushSubs st1
          current_words := st.current_words.drop (i + 1) ++ [w]
          start_time := some w.start
          last_end_time := some w.stop
          speaker := some (w.speaker.getD "Unknown") }
      | none =>
        { subtitles := flushSubs st1
          current_words := [w]
          start_time := some w.start
          last_end_time := some w.stop
          speaker := some (w.speaker.getD "Unknown") }
    else
      { subtitles := flushSubs st1
        current_words := [w]
        start_time := some w.start
        last_end_time := some w.stop
        speaker := some (w.speaker.getD "Unknown") }
  else
    { st1 with
      current_words := st.current_words ++ [w]
      last_end_time := some w.stop }

/-- `group_into_sentences(words, pause_threshold=1.0, max_duration=8.0)`. -/
def group_into_sentences (words : List TimedWord)
    (pause_threshold : ℚ := 1) (max_duration : ℚ := 8) : List Cue :=
  flushSubs (words.foldl (segStep pause_threshold max_duration) initSegState)

/-- Whether one loop iteration takes the punctuation re-split branch
(max-duration boundary with a nonempty buffer containing a punctuated word). -/
def stepResplit (pause_threshold max_duration : ℚ) (st : SegState) (w : TimedWord) : Bool :=
  decide (segBoundary pause_threshold max_duration st w
    ∧ segTooLong max_duration st w
    ∧ (lastPunctIdx st.current_words).isSome)

/-- No iteration of the run starting from state `st` takes the punctuation
re-split branch. -/
def segResplitFree (pause_threshold max_duration : ℚ) : SegState → List TimedWord → Bool
  | _, [] => true
  | st, w :: ws =>
    !stepResplit pause_threshold max_duration st w &&
      segResplitFree pause_threshold max_duration
        (segStep pause_threshold max_duration st w) ws

/-- Total `len(cue.text.split())` over a cue list. -/
def totalTokens (cues : List Cue) : Nat := (cues.map (fun c => tokenCount c.text)).sum

/-- The word has a nonempty, whitespace-free speaker label when one is
present. -/
def spkTokOK (w : TimedWord) : Bool :=
  match w.speaker with
  | none => true
  | some s => strOKB s

/-- Well-formedness of a word list relative to a left time bound: every word
has `start ≤ end`, starts at or after the bound, and words do not overlap. -/
def chainFromB (le : ℚ) : List TimedWord → Bool
  | [] => true
  | w :: ws => if le ≤ w.start ∧ w.start ≤ w.stop then chainFromB w.stop ws else false

/-- Non-overlapping well-formed word sequence: each word has
`start ≤ end` and each word starts at or after the previous word's end. -/
def wordsChainOK : List TimedWord → Bool
  | [] => true
  | w :: ws => if w.start ≤ w.stop then chainFromB w.stop ws else false

/-- Monotone word starts relative to a lower bound, with `start ≤ end` per
word (words may overlap). -/
def startsMonoB (prev : ℚ) : List TimedWord → Bool
  | [] => true
  | w :: ws => if prev ≤ w.start ∧ w.start ≤ w.stop then startsMonoB w.start ws else false

/-- Word sequence with monotone non-decreasing starts and `start ≤ end` per
word (adjacent words may overlap). -/
def wordsMonoOK : List TimedWord → Bool
  | [] => true
  | w :: ws => if w.start ≤ w.stop then startsMonoB w.start ws else false

/-! ## Timestamp formatting (`srt_time_format`) -/

/-- Python `int(q)` on a rational: truncation toward zero. -/
def pyInt (q : ℚ) : Int := if 0 ≤ q then ⌊q⌋ else -⌊-q⌋

/-- Python `a % b` on rationals (sign follows the divisor: floored). -/
def pyMod (a b : ℚ) : ℚ := a - b * ⌊a / b⌋

/-- Python `f"{n:0w}"` zero-padding for the nonnegative field values used
here (a negative value would carry its sign inside the padding, which never
occurs in the formatted fields for nonnegative times). -/
def padZeros (w : Nat) (n : Int) : String :=
  let s := toString n
  if s.length < w then ⟨List.replicate (w - s.length) '0'⟩ ++ s else s

/-- `srt_time_format(seconds)`: `ms = int((seconds % 1) * 1000)`,
`s = int(seconds)`, `m, s = divmod(s, 60)`, `h, m = divmod(m, 60)`
(Python `divmod` is floored), rendered `HH:MM:SS,mmm`. -/
def srt_time_format (seconds : ℚ) : String :=
  let ms := pyInt (pyMod seconds 1 * 1000)
  let s0 := pyInt seconds
  let m0 := Int.fdiv s0 60
  let s1 := Int.fmod s0 60
  let h := Int.fdiv m0 60
  let m1 := Int.fmod m0 60
  padZeros 2 h ++ ":" ++ padZeros 2 m1 ++ ":" ++ padZeros 2 s1 ++ "," ++ padZeros 3 ms

/-- Modelled from the spec: the same timestamp rendering but with the
millisecond field computed as `round((seconds mod 1) * 1000)`, as claim C6
states it.  Used only to compare against `srt_time_format`. -/
def srt_time_format_roundSpec (seconds : ℚ) : String :=
  let ms : Int := round (pyMod seconds 1 * 1000)
  let s0 := ⌊seconds⌋
  let m0 := Int.fdiv s0 60
  let s1 := Int.fmod s0 60
  let h := Int.fdiv m0 60
  let m1 := Int.fmod m0 60
  padZeros 2 h ++ ":" ++ padZeros 2 m1 ++ ":" ++ padZeros 2 s1 ++ "," ++ padZeros 3 ms

/-- The amended spec-side rendering: h/m/s decompose `floor(seconds)` and
the millisecond field is `floor((seconds mod 1) * 1000)` (truncation). -/
def srt_time_format_floorSpec (seconds : ℚ) : String :=
  let ms : Int := ⌊pyMod seconds 1 * 1000⌋
  let s0 := ⌊seconds⌋
  let m0 := Int.fdiv s0 60
  let s1 := Int.fmod s0 60
  let h := Int.fdiv m0 60
  let m1 := Int.fmod m0 60
  padZeros 2 h ++ ":" ++ padZeros 2 m1 ++ ":" ++ padZeros 2 s1 ++ "," ++ padZeros 3 ms

/-! ## Line wrapper (`smart_wrap`) -/

/-- `normalized = " ".join(text.split())`. -/
def pyNormalize (s : String) : String := pyJoin " " (pySplit s)

/-- `is_capitalized`: nonempty and first character uppercase. -/
def is_capitalized (word : String) : Bool :=
  match word.data with
  | [] => false
  | c :: _ => c.isUpper

/-- Python `str.islower()`: at least one cased character and no uppercase
character (ASCII-faithful). -/
def pyIsLower (s : String) : Bool :=
  s.data.any (fun c => c.isLower || c.isUpper) && s.data.all (fun c => !c.isUpper)

/-- `is_small_word`: length ≤ 3 and `islower()`. -/
def is_small_word (word : String) : Bool :=
  word.length ≤ 3 && pyIsLower word

/-- `looks_like_verb`: ends in `ed`/`ing`/`en`, or length > 3. -/
def looks_like_verb (word : String) : Bool :=
  pyEndsWith word "ed" || pyEndsWith word "ing" || pyEndsWith word "en" || word.length > 3

/-- Python `word.strip(" ,.;:!?\"'")`. -/
def stripPunct (s : String) : String :=
  let cs : List Char := [' ', ',', '.', ';', ':', '!', '?', '"', '\'']
  ⟨((s.data.dropWhile (cs.contains ·)).reverse.dropWhile (cs.contains ·)).reverse⟩

/-- `is_bad_split(left_idx)`: the split-rejection heuristics. Indices are
natural numbers (Python never produces a negative candidate index).  The
source checks the verb+small pair twice; the duplicate clause is identical
and therefore omitted without effect. -/
def is_bad_split (tokens : List String) (left_idx : Nat) : Bool :=
  if left_idx + 1 ≥ tokens.length then true
  else
    let left_word := stripPunct (tokens.getD left_idx "")
    let right_word := stripPunct (tokens.getD (left_idx + 1) "")
    (is_capitalized left_word && is_capitalized right_word) ||
    (is_small_word left_word || is_small_word right_word) ||
    (looks_like_verb left_word && is_small_word right_word)

/-- A token ending in one of `. , ; : ! ?` (candidate rule 1). -/
def endsClausePunct (s : String) : Bool :=
  pyEndsWith s "." || pyEndsWith s "," || pyEndsWith s ";" ||
  pyEndsWith s ":" || pyEndsWith s "!" || pyEndsWith s "?"

/-- The candidate split indices, in source order: after punctuation, before
small words, then every boundary. -/
def candidateIndices (tokens : List String) : List Nat :=
  ((List.range (tokens.length - 1)).filter fun i => endsClausePunct (tokens.getD i "")) ++
  ((List.range (tokens.length - 1)).filter fun i => is_small_word (tokens.getD (i + 1) "")) ++
  List.range (tokens.length - 1)

/-- `left, right = " ".join(tokens[:idx+1]), " ".join(tokens[idx+1:])`. -/
def left_right_text (tokens : List String) (idx : Nat) : String × String :=
  (pyJoin " " (tokens.take (idx + 1)), pyJoin " " (tokens.drop (idx + 1)))

/-- Distance `abs(len(left) - target)` on naturals. -/
def natDist (a b : Nat) : Nat := max a b - min a b

/-- One candidate of the best-split scan: skip it if `is_bad_split` or if a
side exceeds the limit, otherwise keep it when its left length is strictly
closer to `target` than the best so far (`best_distance` starts at
infinity, modelled by `none`). -/
def bestSplitStep (tokens : List String) (target maxc : Nat)
    (best : Option (String × String × Nat)) (idx : Nat) :
    Option (String × String × Nat) :=
  if is_bad_split tokens idx = true then best
  else
    let lr := left_right_text tokens idx
    if lr.1.length ≤ maxc ∧ lr.2.length ≤ maxc then
      let dist := natDist lr.1.length target
      match best with
      | none => some (lr.1, lr.2, dist)
      | some (_, _, bd) => if dist < bd then some (lr.1, lr.2, dist) else best
    else best

/-- The best-split scan over all candidate indices in source order. -/
def bestSplit (tokens : List String) (target maxc : Nat) :
    Option (String × String × Nat) :=
  (candidateIndices tokens).foldl (bestSplitStep tokens target maxc) none

/-- One probe of the fallback search: position `pos` (an integer: Python's
`target - radius` may be negative) must be a space strictly inside the
string with both sides within the limit. -/
def tryPos (normalized : String) (maxc : Nat) (pos : Int) : Option (String × String) :=
  if 0 < pos ∧ pos < normalized.length then
    let p := pos.toNat
    if normalized.data.getD p ' ' = ' ' then
      let left : String := ⟨normalized.data.take p⟩
      let right : String := ⟨normalized.data.drop (p + 1)⟩
      if left.length ≤ maxc ∧ right.length ≤ maxc then some (left, right) else none
    else none
  else none

/-- The fallback character-position search: radius 0,1,... scanning
`target - radius` then `target + radius`, returning the first space that
yields two lines within the limit. -/
def charFallback (normalized : String) (target maxc : Nat) : Option (String × String) :=
  (List.range normalized.length).findSome? fun radius =>
    (tryPos normalized maxc ((target : Int) - radius)).orElse
      fun _ => tryPos normalized maxc ((target : Int) + radius)

/-- `tokens = normalized.split(" ")`. -/
def wrapTokens (normalized : String) : List String :=
  (splitCh ' ' normalized.data).map fun l => (⟨l⟩ : String)

/-- `target = min(max_chars_per_line, max(len(normalized) // 2, 1))`. -/
def wrapTarget (normalized : String) (maxc : Nat) : Nat :=
  min maxc (max (normalized.length / 2) 1)

/-- `smart_wrap(text, max_chars_per_line=42)`: the three-tier wrapper. -/
def smart_wrap (text : String) (max_chars_per_line : Nat := 42) : List String :=
  let normalized := pyNormalize text
  if normalized.length ≤ max_chars_per_line then [normalized]
  else
    match bestSplit (wrapTokens normalized) (wrapTarget normalized max_chars_per_line)
        max_chars_per_line with
    | some (l, r, _) => [l, r]
    | none =>
      match charFallback normalized (wrapTarget normalized max_chars_per_line)
          max_chars_per_line with
      | some (l, r) => [l, r]
      | none =>
        [⟨normalized.data.take max_chars_per_line⟩,
         ⟨(normalized.data.drop max_chars_per_line).take max_chars_per_line⟩]

/-! ## SRT writers -/

/-- One block written by `save_srt` for subtitle number `i` (1-based):
index line, timestamp line, then the 1 or 2 wrapped lines, then a blank
line.  The `len(lines) == 1` test mirrors the source. -/
def save_srt_block (i : Nat) (sub : Cue) : String :=
  let lines := smart_wrap sub.text 42
  toString i ++ "\n" ++
  srt_time_format sub.start ++ " --> " ++ srt_time_format sub.stop ++ "\n" ++
  (if lines.length = 1 then lines.getD 0 "" ++ "\n\n"
   else lines.getD 0 "" ++ "\n" ++ lines.getD 1 "" ++ "\n\n")

/-- `save_srt(subtitles, path)` as the text written to the file, with the
running 1-based index. -/
def save_srt_from (i : Nat) : List Cue → String
  | [] => ""
  | sub :: rest => save_srt_block i sub ++ save_srt_from (i + 1) rest

/-- `save_srt` starting at index 1. -/
def save_srt (subtitles : List Cue) : String := save_srt_from 1 subtitles

/-! ## Translation aligner (`translation.py`)

`parse_srt_file` keeps `start`/`end` as the raw timestamp strings and
parses the index with `int(...)`; `align_translations_to_srt` consumes a
parsed translated-dialogue list and falls back to `translate_line`.  The
external single-line translation operation (`translate_line` specialised to
the target language) is modelled as an injected function `fn : String →
String`, exactly as the spec's `translateOne` contract describes it. -/

structure SrtEntry where
  index : Int
  start : String
  stop : String
  text : String
deriving DecidableEq, Repr

structure TransLine where
  speaker : String
  text : String
deriving DecidableEq, Repr

structure AlignedEntry where
  index : Int
  start : String
  stop : String
  translated_text : String
deriving DecidableEq, Repr

/-- The failure sentinel produced by `translate_line` and tested with
`startswith` in the aligner. -/
def failedPrefix : String := "[TRANSLATION FAILED]"

/-- The aligner loop state: the output list, the cursor `td_index`, and a
count of how many times the injected translation operation has been
invoked (instrumentation used only to state the call-count policy). -/
structure AlignState where
  aligned : List AlignedEntry
  td_index : Nat
  calls : Nat
deriving Repr

/-- One iteration of the `for i, sub in enumerate(srt_subtitles)` loop of
`align_translations_to_srt`: consume the next translated line if one
remains, otherwise fall back to one translation call; then, if the result
carries the failure sentinel, retry exactly once and keep the retry only if
it succeeds; always append one aligned entry copying `index`/`start`/`end`. -/
def alignStep (fn : String → String) (translated : List TransLine)
    (st : AlignState) (sub : SrtEntry) : AlignState :=
  let exhausted := translated.length ≤ st.td_index
  let t0 := if exhausted then fn sub.text else (translated.getD st.td_index ⟨"", ""⟩).text
  let td2 := if exhausted then st.td_index else st.td_index + 1
  let c1 := if exhausted then st.calls + 1 else st.calls
  let t1 :=
    if pyStartsWith t0 failedPrefix then
      let final_attempt := fn sub.text
      if pyStartsWith final_attempt failedPrefix = false then final_attempt else t0
    else t0
  let c2 := if pyStartsWith t0 failedPrefix then c1 + 1 else c1
  { aligned := st.aligned ++ [⟨sub.index, sub.start, sub.stop, t1⟩]
    td_index := td2
    calls := c2 }

/-- `align_translations_to_srt(srt_subtitles, translated_dialogue, lang)`
with the per-line translation operation injected as `fn`. -/
def align_translations_to_srt (srt_subtitles : List SrtEntry)
    (translated_dialogue : List TransLine) (fn : String → String) : List AlignedEntry :=
  (srt_subtitles.foldl (alignStep fn translated_dialogue) ⟨[], 0, 0⟩).aligned

/-- One block written by `write_srt_file`: index, timestamp line built from
the stored timestamp strings, then `translated_text` verbatim, then a blank
line.  No wrapping is applied. -/
def write_srt_block (sub : AlignedEntry) : String :=
  toString sub.index ++ "\n" ++
  sub.start ++ " --> " ++ sub.stop ++ "\n" ++
  sub.translated_text ++ "\n\n"

/-- `write_srt_file(aligned_subtitles, path)` as the text written. -/
def write_srt_file : List AlignedEntry → String
  | [] => ""
  | sub :: rest => write_srt_block sub ++ write_srt_file rest

/-! ## String lemmas for token counting -/

theorem strData_append (a b : String) : (a ++ b).data = a.data ++ b.data := rfl

theorem strOKB_spec (s : String) (h : strOKB s = true) :
    s.data ≠ [] ∧ ∀ c ∈ s.data, wsChar c = false := by
  unfold strOKB at h
  rw [Bool.and_eq_true] at h
  obtain ⟨h1, h2⟩ := h
  constructor
  · intro hnil; rw [hnil] at h1; simp at h1
  · intro c hc
    have := List.all_eq_true.mp h2 c hc
    simpa using this

theorem splitWsAux_nonws (t : List Char) : ∀ (acc cs : List Char),
    (∀ c ∈ t, wsChar c = false) →
    splitWsAux acc (t ++ cs) = splitWsAux (t.reverse ++ acc) cs := by
  induction t with
  | nil => intro acc cs _; simp
  | cons c t ih =>
    intro acc cs h
    have hc : wsChar c = false := h c (by simp)
    simp only [List.cons_append, splitWsAux, hc, Bool.false_eq_true, if_false]
    exact (ih (c :: acc) cs (fun x hx => h x (by simp [hx]))).trans
      (by simp [List.append_assoc])

theorem splitWsAux_ws_cons (acc : List Char) (c : Char) (cs : List Char)
    (hc : wsChar c = true) (ha : acc ≠ []) :
    splitWsAux acc (c :: cs) = acc.reverse :: splitWsAux [] cs := by
  simp [splitWsAux, hc, ha]

theorem splitWsAux_allws (t : List Char) : ∀ (acc : List Char),
    (∀ c ∈ t, wsChar c = true) →
    splitWsAux acc t = if acc = [] then [] else [acc.reverse] := by
  induction t with
  | nil => intro acc _; rfl
  | cons c t ih =>
    intro acc h
    have hc : wsChar c = true := h c (by simp)
    have ht : ∀ x ∈ t, wsChar x = true := fun x hx => h x (by simp [hx])
    by_cases ha : acc = []
    · simp [splitWsAux, hc, ha, ih [] ht]
    · simp [splitWsAux, hc, ha, ih [] ht]

theorem splitWsAux_append_allws (l : List Char) : ∀ (acc t : List Char),
    (∀ c ∈ t, wsChar c = true) →
    splitWsAux acc (l ++ t) = splitWsAux acc l := by
  induction l with
  | nil =>
    intro acc t h
    rw [List.nil_append, splitWsAux_allws t acc h]
    rfl
  | cons c l ih =>
    intro acc t h
    by_cases hc : wsChar c = true
    · by_cases ha : acc = []
      · simp only [List.cons_append, splitWsAux, hc, if_true, ha, if_pos]
        exact ih [] t h
      · simp only [List.cons_append, splitWsAux, hc, if_true, ha, if_neg, ite_false]
        exact congrArg (List.cons acc.reverse) (ih [] t h)
    · have hc' : wsChar c = false := by simpa using hc
      simp only [List.cons_append, splitWsAux, hc', Bool.false_eq_true, if_false]
      exact ih (c :: acc) t h

theorem splitWsAux_dropWhile (l : List Char) :
    splitWsAux [] (l.dropWhile (wsChar ·)) = splitWsAux [] l := by
  induction l with
  | nil => rfl
  | cons c l ih =>
    by_cases hc : wsChar c = true
    · rw [List.dropWhile_cons_of_pos (by simpa using hc)]
      rw [ih]
      simp [splitWsAux, hc]
    · rw [List.dropWhile_cons_of_neg (by simpa using hc)]

theorem pySplitL_strip (l : List Char) : pySplitL (pyStripL l) = pySplitL l := by
  unfold pySplitL
  have hdecomp : l.dropWhile (wsChar ·) = pyStripL l ++
      ((l.dropWhile (wsChar ·)).reverse.takeWhile (wsChar ·)).reverse := by
    unfold pyStripL
    conv_lhs => rw [← List.reverse_reverse (l.dropWhile (wsChar ·))]
    conv_lhs => rw [← List.takeWhile_append_dropWhile (p := (wsChar ·))
      (l := (l.dropWhile (wsChar ·)).reverse)]
    rw [List.reverse_append]
  have hws : ∀ c ∈ ((l.dropWhile (wsChar ·)).reverse.takeWhile (wsChar ·)).reverse,
      wsChar c = true := by
    intro c hc
    rw [List.mem_reverse] at hc
    exact List.mem_takeWhile_imp hc
  calc splitWsAux [] (pyStripL l)
      = splitWsAux [] (pyStripL l ++
          ((l.dropWhile (wsChar ·)).reverse.takeWhile (wsChar ·)).reverse) :=
        (splitWsAux_append_allws _ _ _ hws).symm
    _ = splitWsAux [] (l.dropWhile (wsChar ·)) := by rw [← hdecomp]
    _ = splitWsAux [] l := splitWsAux_dropWhile l

theorem pySplitL_join (ws : List String) : ws ≠ [] → (∀ s ∈ ws, strOKB s = true) →
    pySplitL (pyJoin " " ws).data = ws.map String.data := by
  induction ws with
  | nil => intro h; exact absurd rfl h
  | cons s rest ih =>
    intro _ hall
    obtain ⟨hs1, hs2⟩ := strOKB_spec s (hall s (by simp))
    match rest with
    | [] =>
      have key : splitWsAux [] s.data = [s.data] := by
        have h0 := splitWsAux_nonws s.data [] [] hs2
        simpa [splitWsAux, hs1] using h0
      show splitWsAux [] s.data = [s.data]
      exact key
    | s2 :: rest2 =>
      have hJ : (pyJoin " " (s :: s2 :: rest2)).data =
          s.data ++ (' ' :: (pyJoin " " (s2 :: rest2)).data) := by
        show (s ++ " " ++ pyJoin " " (s2 :: rest2)).data = _
        rw [strData_append, strData_append]
        simp
      unfold pySplitL
      rw [hJ, splitWsAux_nonws s.data [] _ hs2, List.append_nil,
        splitWsAux_ws_cons _ ' ' _ (by decide) (by simpa using hs1)]
      rw [List.reverse_reverse]
      have := ih (by simp) (fun x hx => hall x (by simp [hx]))
      unfold pySplitL at this
      rw [this]
      rfl

theorem tokenCount_speaker_text (spk txt : String) (h : strOKB spk = true) :
    tokenCount (spk ++ ": " ++ txt) = 1 + (pySplitL txt.data).length := by
  obtain ⟨h1, h2⟩ := strOKB_spec spk h
  have hdata : (spk ++ ": " ++ txt).data = (spk.data ++ [':']) ++ (' ' :: txt.data) := by
    rw [strData_append, strData_append]
    simp
  have hnonws : ∀ c ∈ spk.data ++ [':'], wsChar c = false := by
    intro c hc
    rcases List.mem_append.mp hc with h' | h'
    · exact h2 c h'
    · simp at h'; subst h'; decide
  unfold tokenCount pySplitL
  rw [hdata, splitWsAux_nonws _ [] _ hnonws, List.append_nil,
    splitWsAux_ws_cons _ ' ' _ (by decide) (by simp)]
  simp [Nat.add_comm]

theorem tokenCount_flush_text (spk : String) (words : List String)
    (h : strOKB spk = true) (hw : words ≠ []) (hall : ∀ s ∈ words, strOKB s = true) :
    tokenCount (spk ++ ": " ++ pyStrip (pyJoin " " words)) = 1 + words.length := by
  rw [tokenCount_speaker_text spk _ h]
  show 1 + (pySplitL (pyStripL (pyJoin " " words).data)).length = 1 + words.length
  rw [pySplitL_strip, pySplitL_join words hw hall, List.length_map]

/-! ## Segmenter case analysis -/

theorem segStep_shape (p d : ℚ) (st : SegState) (w : TimedWord) :
    (segStep p d st w =
      { subtitles := st.subtitles
        current_words := st.current_words ++ [w]
        start_time := some (st.start_time.getD w.start)
        last_end_time := some w.stop
        speaker := (segInit st w).speaker }) ∨
    (segStep p d st w =
      { subtitles := flushSubs (segInit st w)
        current_words := [w]
        start_time := some w.start
        last_end_time := some w.stop
        speaker := some (w.speaker.getD "Unknown") }) ∨
    (∃ i, lastPunctIdx st.current_words = some i ∧
      stepResplit p d st w = true ∧
      segStep p d st w =
        { subtitles := flushSubs (segInit st w)
          current_words := st.current_words.drop (i + 1) ++ [w]
          start_time := some w.start
          last_end_time := some w.stop
          speaker := some (w.speaker.getD "Unknown") }) := by
  by_cases hb : segBoundary p d st w
  · by_cases hd : segTooLong d st w
    · rcases hmatch : lastPunctIdx st.current_words with _ | i
      · right; left
        simp only [segStep]
        rw [if_pos hb, if_pos hd, hmatch]
      · right; right
        refine ⟨i, rfl, ?_, ?_⟩
        · unfold stepResplit
          rw [decide_eq_true_iff]
          exact ⟨hb, hd, by rw [hmatch]; rfl⟩
        · simp only [segStep]
          rw [if_pos hb, if_pos hd, hmatch]
    · right; left
      simp only [segStep]
      rw [if_pos hb, if_neg hd]
  · left
    simp only [segStep]
    rw [if_neg hb]
    rfl

theorem segStep_no_resplit (p d : ℚ) (st : SegState) (w : TimedWord)
    (h : stepResplit p d st w = false) :
    (segStep p d st w =
      { subtitles := st.subtitles
        current_words := st.current_words ++ [w]
        start_time := some (st.start_time.getD w.start)
        last_end_time := some w.stop
        speaker := (segInit st w).speaker }) ∨
    (segStep p d st w =
      { subtitles := flushSubs (segInit st w)
        current_words := [w]
        start_time := some w.start
        last_end_time := some w.stop
        speaker := some (w.speaker.getD "Unknown") }) := by
  rcases segStep_shape p d st w with hA | hB | ⟨i, _, htrue, _⟩
  · exact Or.inl hA
  · exact Or.inr hB
  · rw [htrue] at h; exact absurd h (by simp)

/-! ## Flush and token-count lemmas for the segmenter -/

theorem flushSubs_nil (st : SegState) (h : st.current_words = []) :
    flushSubs st = st.subtitles := by
  simp [flushSubs, h]

theorem flushSubs_nonnil (st : SegState) (h : st.current_words ≠ []) :
    flushSubs st = st.subtitles ++
      [{ start := st.start_time.getD 0, stop := st.last_end_time.getD 0,
         text := st.speaker.getD "None" ++ ": " ++
           pyStrip (pyJoin " " (st.current_words.map (·.word))) }] := by
  simp [flushSubs, h]

theorem totalTokens_append_one (l : List Cue) (c : Cue) :
    totalTokens (l ++ [c]) = totalTokens l + tokenCount c.text := by
  simp [totalTokens]

theorem strOKB_unknown : strOKB "Unknown" = true := by decide

theorem spk_getD_ok (w : TimedWord) (h : spkTokOK w = true) :
    strOKB (w.speaker.getD "Unknown") = true := by
  cases hs : w.speaker with
  | none => rw [Option.getD_none]; exact strOKB_unknown
  | some s =>
    rw [Option.getD_some]
    unfold spkTokOK at h
    rw [hs] at h
    exact h

theorem tokenCount_flush (st : SegState) (h : st.current_words ≠ [])
    (hspk : ∃ s, st.speaker = some s ∧ strOKB s = true)
    (hwords : ∀ w ∈ st.current_words, strOKB w.word = true) :
    totalTokens (flushSubs st) = totalTokens st.subtitles + 1 + st.current_words.length ∧
    (flushSubs st).length = st.subtitles.length + 1 := by
  obtain ⟨s, hs, hsok⟩ := hspk
  rw [flushSubs_nonnil st h]
  refine ⟨?_, by simp⟩
  rw [totalTokens_append_one]
  have hmap_ne : st.current_words.map (·.word) ≠ [] := by
    simpa using h
  have hmap_ok : ∀ x ∈ st.current_words.map (·.word), strOKB x = true := by
    intro x hx
    obtain ⟨w, hw, rfl⟩ := List.mem_map.mp hx
    exact hwords w hw
  show totalTokens st.subtitles +
      tokenCount (st.speaker.getD "None" ++ ": " ++
        pyStrip (pyJoin " " (st.current_words.map (·.word)))) = _
  rw [hs, Option.getD_some,
    tokenCount_flush_text s _ hsok hmap_ne hmap_ok, List.length_map]
  omega

/-! ## Token conservation induction (no re-split) -/

theorem seg_tokens_inv (ws : List TimedWord) (p d : ℚ) : ∀ (st : SegState) (k : Nat),
    totalTokens st.subtitles + st.current_words.length = k + st.subtitles.length →
    (∀ w ∈ st.current_words, strOKB w.word = true) →
    (st.current_words ≠ [] → ∃ s, st.speaker = some s ∧ strOKB s = true) →
    (st.start_time = none → st.current_words = []) →
    (st.current_words = [] → st.start_time = none) →
    (∀ w ∈ ws, strOKB w.word = true) →
    (∀ w ∈ ws, spkTokOK w = true) →
    segResplitFree p d st ws = true →
    totalTokens (ws.foldl (segStep p d) st).subtitles
        + (ws.foldl (segStep p d) st).current_words.length
      = (k + ws.length) + (ws.foldl (segStep p d) st).subtitles.length ∧
    (∀ w ∈ (ws.foldl (segStep p d) st).current_words, strOKB w.word = true) ∧
    ((ws.foldl (segStep p d) st).current_words ≠ [] →
      ∃ s, (ws.foldl (segStep p d) st).speaker = some s ∧ strOKB s = true) := by
  induction ws with
  | nil =>
    intro st k heq hwok hspk _ _ _ _ _
    exact ⟨by simpa using heq, hwok, hspk⟩
  | cons w ws ih =>
    intro st k heq hwok hspk hn1 hn2 hallw hallspk hfree
    rw [List.foldl_cons]
    unfold segResplitFree at hfree
    rw [Bool.and_eq_true, Bool.not_eq_true'] at hfree
    obtain ⟨hstep, hrest⟩ := hfree
    have hwordw : strOKB w.word = true := hallw w (by simp)
    have hspkw : spkTokOK w = true := hallspk w (by simp)
    have hallw' : ∀ x ∈ ws, strOKB x.word = true := fun x hx => hallw x (by simp [hx])
    have hallspk' : ∀ x ∈ ws, spkTokOK x = true := fun x hx => hallspk x (by simp [hx])
    rcases segStep_no_resplit p d st w hstep with hA | hB
    · -- no boundary: the word is appended to the accumulator
      have hconc := ih (segStep p d st w) (k + 1) ?_ ?_ ?_ ?_ ?_ hallw' hallspk' hrest
      · refine ⟨?_, hconc.2.1, hconc.2.2⟩
        have h1 := hconc.1
        simp only [List.length_cons] at h1 ⊢
        omega
      · simp only [hA, List.length_append, List.length_cons, List.length_nil]
        omega
      · simp only [hA]
        intro x hx
        rcases List.mem_append.mp hx with h' | h'
        · exact hwok x h'
        · simp at h'; subst h'; exact hwordw
      · simp only [hA]
        intro _
        unfold segInit
        cases hstart : st.start_time with
        | none =>
          simp only [hstart, Option.isNone_none, if_pos]
          exact ⟨w.speaker.getD "Unknown", rfl, spk_getD_ok w hspkw⟩
        | some q =>
          simp only [hstart, Option.isNone_some, Bool.false_eq_true, if_false]
          have hcur : st.current_words ≠ [] := by
            intro hc
            rw [hn2 hc] at hstart
            exact Option.noConfusion hstart
          exact hspk hcur
      · simp only [hA]
        intro hnone
        exact absurd hnone (by simp)
      · simp only [hA]
        intro hcur
        exact absurd hcur (by simp)
    · -- boundary: flush and restart with the incoming word
      have hconc := ih (segStep p d st w) (k + 1) ?_ ?_ ?_ ?_ ?_ hallw' hallspk' hrest
      · refine ⟨?_, hconc.2.1, hconc.2.2⟩
        have h1 := hconc.1
        simp only [List.length_cons] at h1 ⊢
        omega
      · simp only [hB, List.length_cons, List.length_nil]
        by_cases hcur : st.current_words = []
        · rw [flushSubs_nil _ (show (segInit st w).current_words = [] from hcur)]
          show totalTokens st.subtitles + 1 = (k + 1) + st.subtitles.length
          rw [hcur] at heq
          simp at heq
          omega
        · have hstart : st.start_time ≠ none := fun hc => hcur (hn1 hc)
          have hspkInit : (segInit st w).speaker = st.speaker := by
            unfold segInit
            cases hst : st.start_time with
            | none => exact absurd hst hstart
            | some q => simp [hst]
          obtain ⟨hf1, hf2⟩ := tokenCount_flush (segInit st w)
              (show (segInit st w).current_words ≠ [] from hcur)
              (by rw [hspkInit]; exact hspk hcur)
              (show ∀ x ∈ st.current_words, strOKB x.word = true from hwok)
          rw [hf1, hf2]
          show totalTokens st.subtitles + 1 + st.current_words.length + 1
              = (k + 1) + (st.subtitles.length + 1)
          omega
      · simp only [hB]
        intro x hx
        simp at hx; subst hx; exact hwordw
      · simp only [hB]
        intro _
        exact ⟨w.speaker.getD "Unknown", rfl, spk_getD_ok w hspkw⟩
      · simp only [hB]
        intro hnone
        exact absurd hnone (by simp)
      · simp only [hB]
        intro hcur
        exact absurd hcur (by simp)

/-- C1 (amended): word conservation in the Cue Segmenter holds in the
following corrected form.  Each emitted cue's text carries a one-token
`"Speaker:"` prefix, so for input words that are single whitespace-free
tokens with whitespace-free speaker labels, and for runs in which the
max-duration punctuation re-split never fires, the total number of
whitespace-separated tokens across all emitted cue texts equals the number
of input words plus the number of emitted cues.  (The original equality
without the per-cue prefix term fails — see the counterexample — and a
firing re-split additionally duplicates carried-over words, see C2.) -/
theorem segmenter_token_conservation (words : List TimedWord) (p d : ℚ)
    (hw : ∀ w ∈ words, strOKB w.word = true)
    (hs : ∀ w ∈ words, spkTokOK w = true)
    (hfree : segResplitFree p d initSegState words = true) :
    totalTokens (group_into_sentences words p d)
      = words.length + (group_into_sentences words p d).length := by
  unfold group_into_sentences
  obtain ⟨heq, hwok, hspk⟩ := seg_tokens_inv words p d initSegState 0
    (by simp [initSegState, totalTokens]) (by simp [initSegState])
    (fun h => absurd rfl h) (fun _ => rfl) (fun _ => rfl) hw hs hfree
  by_cases hcur : (words.foldl (segStep p d) initSegState).current_words = []
  · rw [flushSubs_nil _ hcur]
    rw [hcur] at heq
    simpa using heq
  · obtain ⟨hf1, hf2⟩ := tokenCount_flush _ hcur (hspk hcur) hwok
    rw [hf1, hf2]
    omega

/-- C1 counterexample: on the single word `"Hello"` (no speaker), the lone
emitted cue text is `"Unknown: Hello"`, which has 2 whitespace-separated
tokens while the input has 1 word — the claimed equality
`sum(len(cue.text.split())) == len(words)` is false. -/
theorem segmenter_token_conservation_cex :
    totalTokens (group_into_sentences [⟨"Hello", 0, 1, none⟩] 1 8) ≠
      ([⟨"Hello", 0, 1, none⟩] : List TimedWord).length := by
  with_unfolding_all decide

/-- Witness for C1 (amended) at a concrete re-split-free input: two words
from two speakers produce two cues and `4 = 2 + 2` tokens. -/
theorem segmenter_token_conservation_witness :
    segResplitFree 1 8 initSegState
        [⟨"Hi", 0, 1, some "A"⟩, ⟨"there", 2, 3, some "B"⟩] = true ∧
    totalTokens (group_into_sentences
        [⟨"Hi", 0, 1, some "A"⟩, ⟨"there", 2, 3, some "B"⟩] 1 8)
      = ([⟨"Hi", 0, 1, some "A"⟩, ⟨"there", 2, 3, some "B"⟩] : List TimedWord).length +
        (group_into_sentences
          [⟨"Hi", 0, 1, some "A"⟩, ⟨"there", 2, 3, some "B"⟩] 1 8).length :=
  ⟨by with_unfolding_all decide,
   segmenter_token_conservation
     [⟨"Hi", 0, 1, some "A"⟩, ⟨"there", 2, 3, some "B"⟩] 1 8
     (by decide) (by decide) (by with_unfolding_all decide)⟩

/-- C2: the max-duration punctuation re-split is buggy in the source.  With
buffered words `"Hello," "world"` and the boundary forced at the incoming
word `"today"`, the claim says the emitted cue is `"Hello,"` and the next
cue accumulates `"world" "today"`.  The code instead calls `flush()` on the
whole buffer before slicing it, so the emitted cue is `"A: Hello, world"`
and `"world"` is nevertheless carried into the next cue — it appears in two
cues (duplicated). -/
theorem segmenter_resplit_duplicates_words :
    group_into_sentences
        [⟨"Hello,", 0, 5, some "A"⟩, ⟨"world", 11/2, 9, some "A"⟩,
         ⟨"today", 19/2, 10, some "A"⟩] 1 8 =
      [⟨0, 9, "A: Hello, world"⟩, ⟨19/2, 10, "A: world today"⟩] := by
  with_unfolding_all decide

/-- C5: a missing speaker does force a boundary at every word.  For two
adjacent words with no `speaker` key (gap 0.2 s ≤ pause threshold, total
duration far below the max), the claim says a single cue
`"Unknown: Hi there"` is emitted; the code compares `w.get("speaker")`
(None) against the defaulted label `"Unknown"`, sees a speaker change on
every word, and emits one cue per word. -/
theorem segmenter_missing_speaker_splits_every_word :
    group_into_sentences [⟨"Hi", 0, 1, none⟩, ⟨"there", 6/5, 2, none⟩] 1 8 =
      [⟨0, 1, "Unknown: Hi"⟩, ⟨6/5, 2, "Unknown: there"⟩] := by
  with_unfolding_all decide

/-! ## Time ordering of the emitted cues -/

theorem startsMonoB_mono (q q' : ℚ) (ws : List TimedWord) (h : q ≤ q')
    (hm : startsMonoB q' ws = true) : startsMonoB q ws = true := by
  cases ws with
  | nil => rfl
  | cons w ws =>
    unfold startsMonoB at hm ⊢
    by_cases hc : q' ≤ w.start ∧ w.start ≤ w.stop
    · rw [if_pos hc] at hm
      rw [if_pos ⟨le_trans h hc.1, hc.2⟩]
      exact hm
    · rw [if_neg hc] at hm
      exact absurd hm (by simp)

theorem chainFromB_to_mono (le q : ℚ) (ws : List TimedWord) (h : q ≤ le)
    (hc : chainFromB le ws = true) : startsMonoB q ws = true := by
  induction ws generalizing le q with
  | nil => rfl
  | cons w ws ih =>
    unfold chainFromB at hc
    by_cases hcond : le ≤ w.start ∧ w.start ≤ w.stop
    · rw [if_pos hcond] at hc
      unfold startsMonoB
      rw [if_pos ⟨le_trans h hcond.1, hcond.2⟩]
      exact ih w.stop w.start hcond.2 hc
    · rw [if_neg hcond] at hc
      exact absurd hc (by simp)

theorem wordsChainOK_to_mono (ws : List TimedWord) (h : wordsChainOK ws = true) :
    wordsMonoOK ws = true := by
  cases ws with
  | nil => rfl
  | cons w ws =>
    rw [show wordsChainOK (w :: ws) =
      if w.start ≤ w.stop then chainFromB w.stop ws else false from rfl] at h
    rw [show wordsMonoOK (w :: ws) =
      if w.start ≤ w.stop then startsMonoB w.start ws else false from rfl]
    by_cases hcond : w.start ≤ w.stop
    · rw [if_pos hcond] at h
      rw [if_pos hcond]
      exact chainFromB_to_mono w.stop w.start ws hcond h
    · rw [if_neg hcond] at h
      exact absurd h (by simp)

theorem seg_mono_inv (ws : List TimedWord) (p d : ℚ) : ∀ (st : SegState) (stq leq : ℚ),
    st.start_time = some stq → st.last_end_time = some leq → stq ≤ leq →
    (∀ c ∈ st.subtitles, c.start ≤ c.stop) →
    startsMonoB stq ws = true →
    ∃ stq' leq',
      (ws.foldl (segStep p d) st).start_time = some stq' ∧
      (ws.foldl (segStep p d) st).last_end_time = some leq' ∧
      stq' ≤ leq' ∧
      (∀ c ∈ (ws.foldl (segStep p d) st).subtitles, c.start ≤ c.stop) := by
  induction ws with
  | nil =>
    intro st stq leq h1 h2 h3 h4 _
    exact ⟨stq, leq, h1, h2, h3, h4⟩
  | cons w ws ih =>
    intro st stq leq h1 h2 h3 h4 hmono
    rw [List.foldl_cons]
    unfold startsMonoB at hmono
    by_cases hcond : stq ≤ w.start ∧ w.start ≤ w.stop
    swap
    · rw [if_neg hcond] at hmono; exact absurd hmono (by simp)
    rw [if_pos hcond] at hmono
    have hflush_ok : ∀ c ∈ flushSubs (segInit st w), c.start ≤ c.stop := by
      by_cases hcur : (segInit st w).current_words = []
      · rw [flushSubs_nil _ hcur]; exact h4
      · rw [flushSubs_nonnil _ hcur]
        intro c hc
        rcases List.mem_append.mp hc with h' | h'
        · exact h4 c h'
        · simp only [List.mem_singleton] at h'
          subst h'
          show (segInit st w).start_time.getD 0 ≤ (segInit st w).last_end_time.getD 0
          have hst : (segInit st w).start_time = some stq := by
            unfold segInit
            simp [h1]
          have hle : (segInit st w).last_end_time = some leq := by
            unfold segInit
            simpa using h2
          rw [hst, hle]
          simpa using h3
    rcases segStep_shape p d st w with hA | hB | ⟨i, _, _, hC⟩
    · rw [hA]
      refine ih _ stq w.stop (by simp [h1]) rfl ?_ (by simpa using h4) ?_
      · exact le_trans hcond.1 hcond.2
      · exact startsMonoB_mono stq w.start ws hcond.1 hmono
    · rw [hB]
      refine ih _ w.start w.stop rfl rfl hcond.2 (by simpa using hflush_ok) hmono
    · rw [hC]
      refine ih _ w.start w.stop rfl rfl hcond.2 (by simpa using hflush_ok) hmono

theorem seg_chain_inv (ws : List TimedWord) (p d : ℚ) : ∀ (st : SegState) (stq leq : ℚ),
    st.start_time = some stq → st.last_end_time = some leq →
    st.current_words ≠ [] → stq ≤ leq →
    (∀ c ∈ st.subtitles, c.start ≤ c.stop) →
    List.Chain' (fun a b => a.stop ≤ b.start) st.subtitles →
    (∀ c, st.subtitles.getLast? = some c → c.stop ≤ stq) →
    chainFromB leq ws = true →
    ∃ stq' leq',
      (ws.foldl (segStep p d) st).start_time = some stq' ∧
      (ws.foldl (segStep p d) st).last_end_time = some leq' ∧
      (ws.foldl (segStep p d) st).current_words ≠ [] ∧
      stq' ≤ leq' ∧
      (∀ c ∈ (ws.foldl (segStep p d) st).subtitles, c.start ≤ c.stop) ∧
      List.Chain' (fun a b => a.stop ≤ b.start) (ws.foldl (segStep p d) st).subtitles ∧
      (∀ c, (ws.foldl (segStep p d) st).subtitles.getLast? = some c → c.stop ≤ stq') := by
  induction ws with
  | nil =>
    intro st stq leq h1 h2 h3 h4 h5 h6 h7 _
    exact ⟨stq, leq, h1, h2, h3, h4, h5, h6, h7⟩
  | cons w ws ih =>
    intro st stq leq h1 h2 h3 h4 h5 h6 h7 hchain
    rw [List.foldl_cons]
    unfold chainFromB at hchain
    by_cases hcond : leq ≤ w.start ∧ w.start ≤ w.stop
    swap
    · rw [if_neg hcond] at hchain; exact absurd hchain (by simp)
    rw [if_pos hcond] at hchain
    have hst : (segInit st w).start_time = some stq := by
      unfold segInit; simp [h1]
    have hle : (segInit st w).last_end_time = some leq := by
      unfold segInit; simpa using h2
    have hflush : flushSubs (segInit st w) = st.subtitles ++
        [{ start := stq, stop := leq,
           text := (segInit st w).speaker.getD "None" ++ ": " ++
             pyStrip (pyJoin " " (st.current_words.map (·.word))) }] := by
      rw [flushSubs_nonnil _ (show (segInit st w).current_words ≠ [] from h3)]
      rw [hst, hle]
      rfl
    have hflush_ok : ∀ c ∈ flushSubs (segInit st w), c.start ≤ c.stop := by
      rw [hflush]
      intro c hc
      rcases List.mem_append.mp hc with h' | h'
      · exact h5 c h'
      · simp only [List.mem_singleton] at h'
        subst h'
        exact h4
    have hflush_chain :
        List.Chain' (fun a b => a.stop ≤ b.start) (flushSubs (segInit st w)) := by
      rw [hflush]
      rw [List.chain'_append]
      refine ⟨h6, List.chain'_singleton _, ?_⟩
      intro x hx y hy
      simp only [List.head?_cons, Option.mem_def, Option.some.injEq] at hy
      subst hy
      exact h7 x hx
    have hflush_last : ∀ c, (flushSubs (segInit st w)).getLast? = some c →
        c.stop ≤ w.start := by
      rw [hflush]
      intro c hc
      rw [List.getLast?_concat] at hc
      injection hc with hc
      subst hc
      exact hcond.1
    rcases segStep_shape p d st w with hA | hB | ⟨i, _, _, hC⟩
    · rw [hA]
      refine ih _ stq w.stop (by simp [h1]) rfl (by simp) ?_ (by simpa using h5)
        (by simpa using h6) ?_ hchain
      · exact le_trans h4 (le_trans hcond.1 hcond.2)
      · intro c hc
        simp only at hc
        exact h7 c hc
    · rw [hB]
      exact ih _ w.start w.stop rfl rfl (by simp) hcond.2
        (by simpa using hflush_ok) (by simpa using hflush_chain)
        (by intro c hc; exact hflush_last c hc) hchain
    · rw [hC]
      exact ih _ w.start w.stop rfl rfl (by simp) hcond.2
        (by simpa using hflush_ok) (by simpa using hflush_chain)
        (by intro c hc; exact hflush_last c hc) hchain

theorem seg_first_step (p d : ℚ) (w : TimedWord) :
    segStep p d initSegState w =
      { subtitles := [], current_words := [w], start_time := some w.start,
        last_end_time := some w.stop, speaker := some (w.speaker.getD "Unknown") } := by
  rcases segStep_shape p d initSegState w with hA | hB | ⟨i, hmatch, _, _⟩
  · rw [hA]; rfl
  · rw [hB]; rfl
  · simp [initSegState, lastPunctIdx] at hmatch

theorem seg_mono_all (words : List TimedWord) (p d : ℚ) (h : wordsMonoOK words = true) :
    ∀ c ∈ group_into_sentences words p d, c.start ≤ c.stop := by
  cases words with
  | nil =>
    intro c hc
    exact absurd hc (by rw [show group_into_sentences [] p d = [] from rfl]; simp)
  | cons w ws =>
    rw [show wordsMonoOK (w :: ws) =
      if w.start ≤ w.stop then startsMonoB w.start ws else false from rfl] at h
    by_cases hcond : w.start ≤ w.stop
    swap
    · rw [if_neg hcond] at h; exact absurd h (by simp)
    rw [if_pos hcond] at h
    unfold group_into_sentences
    rw [List.foldl_cons, seg_first_step]
    obtain ⟨stq', leq', hst, hle, hord, hall⟩ :=
      seg_mono_inv ws p d
        { subtitles := [], current_words := [w], start_time := some w.start,
          last_end_time := some w.stop, speaker := some (w.speaker.getD "Unknown") }
        w.start w.stop rfl rfl hcond (by intro c hc; simp at hc) h
    by_cases hcur : (ws.foldl (segStep p d)
        { subtitles := [], current_words := [w], start_time := some w.start,
          last_end_time := some w.stop,
          speaker := some (w.speaker.getD "Unknown") }).current_words = []
    · rw [flushSubs_nil _ hcur]
      exact hall
    · rw [flushSubs_nonnil _ hcur]
      intro c hc
      rcases List.mem_append.mp hc with h' | h'
      · exact hall c h'
      · simp only [List.mem_singleton] at h'
        subst h'
        show _ ≤ _
        rw [hst, hle]
        simpa using hord

theorem seg_chain_all (words : List TimedWord) (p d : ℚ) (h : wordsChainOK words = true) :
    List.Chain' (fun a b => a.stop ≤ b.start) (group_into_sentences words p d) := by
  cases words with
  | nil =>
    rw [show group_into_sentences [] p d = [] from rfl]
    exact List.chain'_nil
  | cons w ws =>
    rw [show wordsChainOK (w :: ws) =
      if w.start ≤ w.stop then chainFromB w.stop ws else false from rfl] at h
    by_cases hcond : w.start ≤ w.stop
    swap
    · rw [if_neg hcond] at h; exact absurd h (by simp)
    rw [if_pos hcond] at h
    unfold group_into_sentences
    rw [List.foldl_cons, seg_first_step]
    obtain ⟨stq', leq', hst, hle, hcur, hord, hall, hch, hlast⟩ :=
      seg_chain_inv ws p d
        { subtitles := [], current_words := [w], start_time := some w.start,
          last_end_time := some w.stop, speaker := some (w.speaker.getD "Unknown") }
        w.start w.stop rfl rfl (by simp) hcond
        (by intro c hc; simp at hc) List.chain'_nil
        (by intro c hc; simp at hc) h
    rw [flushSubs_nonnil _ hcur]
    rw [List.chain'_append]
    refine ⟨hch, List.chain'_singleton _, ?_⟩
    intro x hx y hy
    simp only [List.head?_cons, Option.mem_def, Option.some.injEq] at hy
    subst hy
    show x.stop ≤ _
    rw [hst]
    exact hlast x hx

/-- C7 (amended): for well-formed word sequences every emitted cue satisfies
`cue.end ≥ cue.start`; the claimed strict time ordering of consecutive cues
must be weakened to `next.start ≥ prev.end`, and it requires adjacent words
not to overlap (`next word's start ≥ previous word's end`) — with the
claim's original hypotheses (monotone starts, words may overlap slightly) a
later cue can start before the previous cue ends, see the counterexample. -/
theorem segmenter_cue_time_ordering (words : List TimedWord) (p d : ℚ) :
    (wordsMonoOK words = true →
      ∀ c ∈ group_into_sentences words p d, c.start ≤ c.stop) ∧
    (wordsChainOK words = true →
      List.Chain' (fun a b => a.stop ≤ b.start) (group_into_sentences words p d)) :=
  ⟨seg_mono_all words p d, seg_chain_all words p d⟩

/-- C7 counterexample: words `a: [0,2]` and `b: [1.5,3]` have monotone
non-decreasing starts and `end ≥ start` (they merely overlap slightly, which
the claim allows), yet the two emitted cues are `[0,2]` and `[1.5,3]`: the
second cue starts at `1.5`, which is not after the first cue's end `2` — the
emitted cue sequence is not strictly time-ordered. -/
theorem segmenter_cue_time_ordering_cex :
    wordsMonoOK [⟨"a", 0, 2, some "A"⟩, ⟨"b", 3/2, 3, some "B"⟩] = true ∧
    group_into_sentences [⟨"a", 0, 2, some "A"⟩, ⟨"b", 3/2, 3, some "B"⟩] 1 8 =
      [⟨0, 2, "A: a"⟩, ⟨3/2, 3, "B: b"⟩] ∧
    ¬ ((2 : ℚ) < 3/2) := by
  refine ⟨by with_unfolding_all decide, by with_unfolding_all decide, ?_⟩
  with_unfolding_all decide

/-- Witness for C7 at a concrete non-overlapping input: two words for two
speakers produce two cues in weak time order. -/
theorem segmenter_cue_time_ordering_witness :
    wordsChainOK [⟨"a", 0, 1, some "A"⟩, ⟨"b", 2, 3, some "B"⟩] = true ∧
    List.Chain' (fun a b => a.stop ≤ b.start)
      (group_into_sentences [⟨"a", 0, 1, some "A"⟩, ⟨"b", 2, 3, some "B"⟩] 1 8) :=
  ⟨by with_unfolding_all decide,
   (segmenter_cue_time_ordering [⟨"a", 0, 1, some "A"⟩, ⟨"b", 2, 3, some "B"⟩] 1 8).2
     (by with_unfolding_all decide)⟩

/-! ## Wrapper bounds -/

theorem bestSplitStep_bounds (tokens : List String) (target maxc : Nat)
    (best : Option (String × String × Nat)) (idx : Nat)
    (h : ∀ l r dd, best = some (l, r, dd) → l.length ≤ maxc ∧ r.length ≤ maxc) :
    ∀ l r dd, bestSplitStep tokens target maxc best idx = some (l, r, dd) →
      l.length ≤ maxc ∧ r.length ≤ maxc := by
  intro l r dd hstep
  unfold bestSplitStep at hstep
  by_cases hbad : is_bad_split tokens idx = true
  · rw [if_pos hbad] at hstep; exact h l r dd hstep
  · rw [if_neg hbad] at hstep
    by_cases hlen : (left_right_text tokens idx).1.length ≤ maxc ∧
        (left_right_text tokens idx).2.length ≤ maxc
    · rw [if_pos hlen] at hstep
      dsimp only at hstep
      cases best with
      | none =>
        dsimp only at hstep
        simp only [Option.some.injEq, Prod.mk.injEq] at hstep
        obtain ⟨h1, h2, _⟩ := hstep
        rw [← h1, ← h2]
        exact hlen
      | some b =>
        obtain ⟨bl, br, bd⟩ := b
        dsimp only at hstep
        by_cases hd : natDist (left_right_text tokens idx).1.length target < bd
        · rw [if_pos hd] at hstep
          simp only [Option.some.injEq, Prod.mk.injEq] at hstep
          obtain ⟨h1, h2, _⟩ := hstep
          rw [← h1, ← h2]
          exact hlen
        · rw [if_neg hd] at hstep
          exact h l r dd hstep
    · rw [if_neg hlen] at hstep
      exact h l r dd hstep

theorem bestSplit_fold_bounds (tokens : List String) (target maxc : Nat) :
    ∀ (cands : List Nat) (acc : Option (String × String × Nat)),
    (∀ l r dd, acc = some (l, r, dd) → l.length ≤ maxc ∧ r.length ≤ maxc) →
    ∀ l r dd, cands.foldl (bestSplitStep tokens target maxc) acc = some (l, r, dd) →
      l.length ≤ maxc ∧ r.length ≤ maxc := by
  intro cands
  induction cands with
  | nil => intro acc h; exact h
  | cons c cands ih =>
    intro acc h
    rw [List.foldl_cons]
    exact ih _ (bestSplitStep_bounds tokens target maxc acc c h)

theorem bestSplit_bounds (tokens : List String) (target maxc : Nat) (l r : String) (dd : Nat)
    (h : bestSplit tokens target maxc = some (l, r, dd)) :
    l.length ≤ maxc ∧ r.length ≤ maxc := by
  unfold bestSplit at h
  exact bestSplit_fold_bounds tokens target maxc _ none (by intro _ _ _ hc; cases hc) l r dd h

theorem tryPos_bounds (normalized : String) (maxc : Nat) (pos : Int)
    (lr : String × String) (h : tryPos normalized maxc pos = some lr) :
    lr.1.length ≤ maxc ∧ lr.2.length ≤ maxc := by
  unfold tryPos at h
  by_cases h1 : 0 < pos ∧ pos < (normalized.length : Int)
  · rw [if_pos h1] at h
    by_cases h2 : normalized.data.getD pos.toNat ' ' = ' '
    · rw [if_pos h2] at h
      by_cases h3 : (⟨normalized.data.take pos.toNat⟩ : String).length ≤ maxc ∧
          (⟨normalized.data.drop (pos.toNat + 1)⟩ : String).length ≤ maxc
      · rw [if_pos h3] at h
        have := Option.some.inj h
        rw [← this]
        exact h3
      · rw [if_neg h3] at h; cases h
    · rw [if_neg h2] at h; cases h
  · rw [if_neg h1] at h; cases h

theorem findSome_mem {α β : Type} (f : α → Option β) :
    ∀ (l : List α) (b : β), l.findSome? f = some b → ∃ a ∈ l, f a = some b := by
  intro l
  induction l with
  | nil => intro b h; cases h
  | cons a l ih =>
    intro b h
    rw [List.findSome?_cons] at h
    cases hfa : f a with
    | some c =>
      rw [hfa] at h
      dsimp only at h
      exact ⟨a, by simp, hfa.trans h⟩
    | none =>
      rw [hfa] at h
      dsimp only at h
      obtain ⟨x, hx, hfx⟩ := ih b h
      exact ⟨x, by simp [hx], hfx⟩

theorem charFallback_bounds (normalized : String) (target maxc : Nat)
    (lr : String × String) (h : charFallback normalized target maxc = some lr) :
    lr.1.length ≤ maxc ∧ lr.2.length ≤ maxc := by
  unfold charFallback at h
  obtain ⟨radius, _, hrad⟩ := findSome_mem _ _ _ h
  cases h1 : tryPos normalized maxc ((target : Int) - radius) with
  | some lr' =>
    rw [h1] at hrad
    dsimp only [Option.orElse] at hrad
    have heq : lr' = lr := Option.some.inj hrad
    subst heq
    exact tryPos_bounds _ _ _ _ h1
  | none =>
    rw [h1] at hrad
    dsimp only [Option.orElse] at hrad
    exact tryPos_bounds _ _ _ _ hrad

theorem smart_wrap_eq_cases (text : String) (maxc : Nat) :
    (smart_wrap text maxc = [pyNormalize text] ∧ (pyNormalize text).length ≤ maxc) ∨
    (∃ l r dd, bestSplit (wrapTokens (pyNormalize text))
        (wrapTarget (pyNormalize text) maxc) maxc = some (l, r, dd) ∧
      smart_wrap text maxc = [l, r]) ∨
    (∃ lr, charFallback (pyNormalize text)
        (wrapTarget (pyNormalize text) maxc) maxc = some lr ∧
      smart_wrap text maxc = [lr.1, lr.2]) ∨
    smart_wrap text maxc =
      [⟨(pyNormalize text).data.take maxc⟩,
       ⟨((pyNormalize text).data.drop maxc).take maxc⟩] := by
  by_cases h1 : (pyNormalize text).length ≤ maxc
  · exact Or.inl ⟨by simp only [smart_wrap]; rw [if_pos h1], h1⟩
  · right
    cases hbs : bestSplit (wrapTokens (pyNormalize text))
        (wrapTarget (pyNormalize text) maxc) maxc with
    | some t =>
      obtain ⟨l, r, dd⟩ := t
      exact Or.inl ⟨l, r, dd, rfl, by simp only [smart_wrap]; rw [if_neg h1, hbs]⟩
    | none =>
      right
      cases hcf : charFallback (pyNormalize text)
          (wrapTarget (pyNormalize text) maxc) maxc with
      | some lr =>
        exact Or.inl ⟨lr, rfl, by simp only [smart_wrap]; rw [if_neg h1, hbs, hcf]⟩
      | none =>
        exact Or.inr (by simp only [smart_wrap]; rw [if_neg h1, hbs, hcf])

theorem smart_wrap_bounds_all (text : String) (maxc : Nat) :
    ((smart_wrap text maxc).length = 1 ∨ (smart_wrap text maxc).length = 2) ∧
    ∀ line ∈ smart_wrap text maxc, line.length ≤ maxc := by
  rcases smart_wrap_eq_cases text maxc with ⟨heq, hle⟩ | ⟨l, r, dd, hbs, heq⟩ |
    ⟨lr, hcf, heq⟩ | heq
  · rw [heq]
    refine ⟨Or.inl rfl, ?_⟩
    intro line hl
    simp only [List.mem_singleton] at hl
    subst hl
    exact hle
  · rw [heq]
    obtain ⟨hl, hr⟩ := bestSplit_bounds _ _ _ _ _ _ hbs
    refine ⟨Or.inr rfl, ?_⟩
    intro line hline
    rcases List.mem_cons.mp hline with h' | h'
    · subst h'; exact hl
    · simp only [List.mem_singleton] at h'; subst h'; exact hr
  · rw [heq]
    obtain ⟨hl, hr⟩ := charFallback_bounds _ _ _ _ hcf
    refine ⟨Or.inr rfl, ?_⟩
    intro line hline
    rcases List.mem_cons.mp hline with h' | h'
    · subst h'; exact hl
    · simp only [List.mem_singleton] at h'; subst h'; exact hr
  · rw [heq]
    refine ⟨Or.inr rfl, ?_⟩
    intro line hline
    rcases List.mem_cons.mp hline with h' | h'
    · subst h'
      show ((pyNormalize text).data.take maxc).length ≤ maxc
      rw [List.length_take]
      exact min_le_left _ _
    · simp only [List.mem_singleton] at h'
      subst h'
      show (((pyNormalize text).data.drop maxc).take maxc).length ≤ maxc
      rw [List.length_take]
      exact min_le_left _ _

theorem smart_wrap_ne_nil (text : String) (maxc : Nat) : smart_wrap text maxc ≠ [] := by
  rcases smart_wrap_eq_cases text maxc with ⟨heq, _⟩ | ⟨l, r, dd, _, heq⟩ |
    ⟨lr, _, heq⟩ | heq <;> rw [heq] <;> simp

/-- C4: for every input string and every positive `max_chars_per_line`
(including the default 42), `smart_wrap` returns exactly 1 or 2 lines, each
of length at most `max_chars_per_line`; as a structurally recursive total
function the embedding also witnesses that no exception escapes the
three-tier fallback. -/
theorem wrapper_total_and_bounded (text : String) (max_chars_per_line : Nat)
    (_hpos : 0 < max_chars_per_line) :
    ((smart_wrap text max_chars_per_line).length = 1 ∨
      (smart_wrap text max_chars_per_line).length = 2) ∧
    ∀ line ∈ smart_wrap text max_chars_per_line, line.length ≤ max_chars_per_line :=
  smart_wrap_bounds_all text max_chars_per_line

/-- Witness for C4 at the default limit and the spec's example sentence. -/
theorem wrapper_total_and_bounded_witness :
    0 < 42 ∧ ("Alice Johnson went to the market" : String).length ≤ 42 :=
  ⟨by decide,
   (wrapper_total_and_bounded "Alice Johnson went to the market" 42 (by decide)).2
     "Alice Johnson went to the market" (by decide)⟩

/-! ## Normalisation length lemmas for re-wrapping -/

theorem strLength_append (a b : String) : (a ++ b).length = a.length + b.length := by
  show (a ++ b).data.length = a.data.length + b.data.length
  rw [strData_append, List.length_append]

theorem splitWsAux_sum_bound : ∀ (l acc : List Char),
    ((splitWsAux acc l).map List.length).sum + (splitWsAux acc l).length
      ≤ l.length + acc.length + 1 := by
  intro l
  induction l with
  | nil =>
    intro acc
    by_cases ha : acc = []
    · simp [splitWsAux, ha]
    · simp [splitWsAux, ha]
  | cons c l ih =>
    intro acc
    by_cases hc : wsChar c = true
    · by_cases ha : acc = []
      · rw [show splitWsAux acc (c :: l) = splitWsAux [] l by
          simp [splitWsAux, hc, ha]]
        have := ih []
        simp only [List.length_nil] at this
        simp only [List.length_cons]
        omega
      · rw [show splitWsAux acc (c :: l) = acc.reverse :: splitWsAux [] l by
          simp [splitWsAux, hc, ha]]
        have := ih []
        simp only [List.length_nil] at this
        simp only [List.map_cons, List.sum_cons, List.length_cons, List.length_reverse]
        omega
    · rw [show splitWsAux acc (c :: l) = splitWsAux (c :: acc) l by
        simp [splitWsAux, hc]]
      have := ih (c :: acc)
      simp only [List.length_cons] at this ⊢
      omega

theorem pyJoin_sp_length : ∀ (ts : List String), ts ≠ [] →
    (pyJoin " " ts).length + 1 = (ts.map String.length).sum + ts.length := by
  intro ts
  induction ts with
  | nil => intro h; exact absurd rfl h
  | cons s rest ih =>
    intro _
    cases rest with
    | nil => simp [pyJoin]
    | cons s2 rest2 =>
      have hJ : pyJoin " " (s :: s2 :: rest2) = s ++ " " ++ pyJoin " " (s2 :: rest2) := rfl
      rw [hJ, strLength_append, strLength_append]
      have := ih (by simp)
      simp only [List.map_cons, List.sum_cons, List.length_cons] at this ⊢
      have hsp : (" " : String).length = 1 := rfl
      omega

theorem pyNormalize_length_le (s : String) : (pyNormalize s).length ≤ s.length := by
  by_cases hts : pySplit s = []
  · unfold pyNormalize
    rw [hts]
    exact Nat.zero_le _
  · have h1 := pyJoin_sp_length (pySplit s) hts
    have h2 := splitWsAux_sum_bound s.data []
    have h3 : List.map String.length (pySplit s) = List.map List.length (pySplitL s.data) := by
      unfold pySplit
      rw [List.map_map]
      rfl
    have h4 : (pySplit s).length = (pySplitL s.data).length := by
      unfold pySplit
      rw [List.length_map]
    rw [h3, h4] at h1
    unfold pySplitL at h1
    simp only [List.length_nil] at h2
    unfold pyNormalize
    show (pyJoin " " (pySplit s)).length ≤ s.data.length
    omega

theorem smart_wrap_short (s : String) (maxc : Nat) (h : (pyNormalize s).length ≤ maxc) :
    smart_wrap s maxc = [pyNormalize s] := by
  simp only [smart_wrap]
  rw [if_pos h]

theorem headD_mem (l : List String) (d : String) (h : l ≠ []) : l.headD d ∈ l := by
  cases l with
  | nil => exact absurd rfl h
  | cons a l => simp

/-- C9 (amended): re-wrapping the first line of a wrap result always yields
a single line, namely the whitespace-normalisation of that first line:
`wrap(wrap(text,N)[0], N) = [normalize(wrap(text,N)[0])]`.  The claimed
identity `wrap(wrap(text,N)[0], N) = [wrap(text,N)[0]]` fails only in the
hard-truncation fallback, which can leave a trailing space on the first
line that re-wrapping strips — see the counterexample. -/
theorem wrapper_first_line_rewrap (text : String) (maxc : Nat) :
    smart_wrap ((smart_wrap text maxc).headD "") maxc
      = [pyNormalize ((smart_wrap text maxc).headD "")] := by
  apply smart_wrap_short
  calc (pyNormalize ((smart_wrap text maxc).headD "")).length
      ≤ ((smart_wrap text maxc).headD "").length := pyNormalize_length_le _
    _ ≤ maxc := (smart_wrap_bounds_all text maxc).2 _
        (headD_mem _ _ (smart_wrap_ne_nil text maxc))

/-- C9 counterexample: `wrap("abc defgh", 4)` ends in the hard-truncation
tier and returns `["abc ", "defg"]`; re-wrapping the first line gives
`wrap("abc ", 4) = ["abc"] ≠ ["abc "]`, refuting the claimed idempotence
equation at `text = "abc defgh"`, `N = 4`. -/
theorem wrapper_first_line_rewrap_cex :
    smart_wrap "abc defgh" 4 = ["abc ", "defg"] ∧
    smart_wrap "abc " 4 = ["abc"] ∧
    (["abc"] : List String) ≠ ["abc "] :=
  ⟨by decide, by decide, by decide⟩

/-! ## Aligner frame and retry policy -/

theorem alignStep_aligned_map (fn : String → String) (translated : List TransLine)
    (st : AlignState) (sub : SrtEntry) :
    (alignStep fn translated st sub).aligned.map (fun a => (a.index, a.start, a.stop))
      = st.aligned.map (fun a => (a.index, a.start, a.stop)) ++
        [(sub.index, sub.start, sub.stop)] := by
  show (st.aligned ++ [_]).map _ = _
  rw [List.map_append]
  rfl

theorem align_fold_frame (fn : String → String) (translated : List TransLine) :
    ∀ (subs : List SrtEntry) (st : AlignState),
    (subs.foldl (alignStep fn translated) st).aligned.map
        (fun a => (a.index, a.start, a.stop))
      = st.aligned.map (fun a => (a.index, a.start, a.stop)) ++
        subs.map (fun s => (s.index, s.start, s.stop)) := by
  intro subs
  induction subs with
  | nil => intro st; simp
  | cons s subs ih =>
    intro st
    rw [List.foldl_cons, ih, alignStep_aligned_map]
    simp

/-- C3: the Translation Aligner returns exactly one output entry per input
cue, in input order, with `index`, `start` and `end` copied verbatim from
the corresponding cue, for every cue list, translated-line list and
`translateOne` function; surplus translated lines never produce extra
output entries. -/
theorem aligner_frame_guarantee (srt_subtitles : List SrtEntry)
    (translated_dialogue : List TransLine) (fn : String → String) :
    (align_translations_to_srt srt_subtitles translated_dialogue fn).length
      = srt_subtitles.length ∧
    (align_translations_to_srt srt_subtitles translated_dialogue fn).map
        (fun a => (a.index, a.start, a.stop))
      = srt_subtitles.map (fun s => (s.index, s.start, s.stop)) := by
  have h := align_fold_frame fn translated_dialogue srt_subtitles ⟨[], 0, 0⟩
  unfold align_translations_to_srt
  refine ⟨?_, by simpa using h⟩
  have hlen := congrArg List.length h
  simpa using hlen

/-- C8: the aligner's fallback and retry-once policy.  When the translated
stream is exhausted the step makes exactly one fallback `translateOne` call,
plus exactly one more when the result carries the failure sentinel — and the
still-failed cue is nevertheless emitted with the sentinel text.  When a
stream line is consumed, a sentinel-tagged line triggers exactly one
`translateOne` attempt and a clean line triggers none. -/
theorem aligner_fallback_retry_policy (fn : String → String) (translated : List TransLine)
    (st : AlignState) (sub : SrtEntry) :
    (translated.length ≤ st.td_index →
      pyStartsWith (fn sub.text) failedPrefix = false →
        (alignStep fn translated st sub).calls = st.calls + 1 ∧
        (alignStep fn translated st sub).aligned
          = st.aligned ++ [⟨sub.index, sub.start, sub.stop, fn sub.text⟩]) ∧
    (translated.length ≤ st.td_index →
      pyStartsWith (fn sub.text) failedPrefix = true →
        (alignStep fn translated st sub).calls = st.calls + 2 ∧
        (alignStep fn translated st sub).aligned
          = st.aligned ++ [⟨sub.index, sub.start, sub.stop, fn sub.text⟩]) ∧
    (st.td_index < translated.length →
      pyStartsWith (translated.getD st.td_index ⟨"", ""⟩).text failedPrefix = false →
        (alignStep fn translated st sub).calls = st.calls ∧
        (alignStep fn translated st sub).aligned
          = st.aligned ++ [⟨sub.index, sub.start, sub.stop,
              (translated.getD st.td_index ⟨"", ""⟩).text⟩]) ∧
    (st.td_index < translated.length →
      pyStartsWith (translated.getD st.td_index ⟨"", ""⟩).text failedPrefix = true →
        (alignStep fn translated st sub).calls = st.calls + 1) := by
  refine ⟨?_, ?_, ?_, ?_⟩
  · intro hex hok
    unfold alignStep
    simp [hex, hok]
  · intro hex hfail
    unfold alignStep
    simp [hex, hfail]
  · intro hlt hok
    have hnex : ¬ translated.length ≤ st.td_index := by omega
    simp only [List.getD_eq_getElem?_getD] at hok
    unfold alignStep
    simp [hnex, hok]
  · intro hlt hfail
    have hnex : ¬ translated.length ≤ st.td_index := by omega
    simp only [List.getD_eq_getElem?_getD] at hfail
    unfold alignStep
    simp [hnex, hfail]

/-- Witness for C8: with an exhausted stream and a translation function that
always fails, the step makes exactly two calls (fallback plus one retry). -/
theorem aligner_fallback_retry_policy_witness :
    (([] : List TransLine).length ≤ 0) ∧
    pyStartsWith ((fun s => "[TRANSLATION FAILED] " ++ s) "hi") failedPrefix = true ∧
    (alignStep (fun s => "[TRANSLATION FAILED] " ++ s) []
      ⟨[], 0, 0⟩ ⟨1, "a", "b", "hi"⟩).calls = 0 + 2 :=
  ⟨by decide, by decide,
   ((aligner_fallback_retry_policy (fun s => "[TRANSLATION FAILED] " ++ s) []
      ⟨[], 0, 0⟩ ⟨1, "a", "b", "hi"⟩).2.1 (by decide) (by decide)).1⟩

/-! ## Timestamp formatting -/

theorem pyMod_one (t : ℚ) : pyMod t 1 = t - ⌊t⌋ := by
  unfold pyMod
  rw [div_one, one_mul]

theorem srt_time_format_truncates (t : ℚ) (ht : 0 ≤ t) :
    srt_time_format t = srt_time_format_floorSpec t := by
  have h1 : pyInt t = ⌊t⌋ := by unfold pyInt; rw [if_pos ht]
  have h2 : (0 : ℚ) ≤ pyMod t 1 * 1000 := by
    rw [pyMod_one]
    have hf : (⌊t⌋ : ℚ) ≤ t := Int.floor_le t
    have : (0 : ℚ) ≤ t - ⌊t⌋ := by linarith
    positivity
  have h3 : pyInt (pyMod t 1 * 1000) = ⌊pyMod t 1 * 1000⌋ := by
    unfold pyInt; rw [if_pos h2]
  unfold srt_time_format srt_time_format_floorSpec
  rw [h1, h3]

/-- C6 (amended): the timestamp for `t` seconds is `HH:MM:SS,mmm` with the
h/m/s fields the floored-divmod decomposition of `floor(t)` and the
millisecond field `floor((t mod 1) * 1000)` — the code truncates with
`int(...)`, it does not round as the claim states (see the counterexample);
the claim's two examples hold under exact rational arithmetic:
`12.345 → "00:00:12,345"` and `3661.5 → "01:01:01,500"`. -/
theorem timestamp_formatting (t : ℚ) (ht : 0 ≤ t) :
    srt_time_format t = srt_time_format_floorSpec t ∧
    srt_time_format (2469/200) = "00:00:12,345" ∧
    srt_time_format (7323/2) = "01:01:01,500" :=
  ⟨srt_time_format_truncates t ht,
   by with_unfolding_all decide, by with_unfolding_all decide⟩

/-- C6 counterexample: at `t = 0.0006` seconds the code formats the
millisecond field as `int(0.6) = 0`, whereas the claimed formula
`round((t mod 1) * 1000)` yields 1 — the code truncates instead of
rounding. -/
theorem timestamp_formatting_cex :
    srt_time_format (3/5000) = "00:00:00,000" ∧
    srt_time_format_roundSpec (3/5000) = "00:00:00,001" ∧
    ("00:00:00,000" : String) ≠ "00:00:00,001" :=
  ⟨by with_unfolding_all decide, by with_unfolding_all decide, by decide⟩

/-- Witness for C6 (amended) at `t = 12.345`. -/
theorem timestamp_formatting_witness :
    (0 ≤ (2469/200 : ℚ)) ∧
    srt_time_format (2469/200) = srt_time_format_floorSpec (2469/200) :=
  ⟨by with_unfolding_all decide,
   (timestamp_formatting (2469/200) (by with_unfolding_all decide)).1⟩

/-! ## Line structure of the written subtitle files -/

theorem strMk_data (s : String) : (⟨s.data⟩ : String) = s := rfl

theorem splitCh_cons_sep (c : Char) (rest : List Char) :
    splitCh c (c :: rest) = [] :: splitCh c rest := by
  simp [splitCh]

theorem splitCh_append_token (c : Char) : ∀ (A rest : List Char), (∀ x ∈ A, x ≠ c) →
    splitCh c (A ++ c :: rest) = A :: splitCh c rest := by
  intro A
  induction A with
  | nil =>
    intro rest _
    simp [splitCh]
  | cons a A ih =>
    intro rest h
    have ha : a ≠ c := h a (by simp)
    show splitCh c (a :: (A ++ c :: rest)) = (a :: A) :: splitCh c rest
    rw [show splitCh c (a :: (A ++ c :: rest)) =
        (match splitCh c (A ++ c :: rest) with
         | [] => [[a]]
         | t :: ts => (a :: t) :: ts) from by
      simp [splitCh, ha]]
    rw [ih rest (fun x hx => h x (by simp [hx]))]

theorem write_block_data (sub : AlignedEntry) (rest : List Char) :
    (write_srt_block sub).data ++ rest
      = (toString sub.index).data ++ '\n' ::
        ((sub.start ++ " --> " ++ sub.stop).data ++ '\n' ::
          (sub.translated_text.data ++ '\n' :: '\n' :: rest)) := by
  unfold write_srt_block
  simp only [strData_append, List.append_assoc]
  rfl

theorem splitCh_write_block (sub : AlignedEntry) (rest : List Char)
    (hidx : ∀ x ∈ (toString sub.index).data, x ≠ '\n')
    (hstart : ∀ x ∈ sub.start.data, x ≠ '\n')
    (hstop : ∀ x ∈ sub.stop.data, x ≠ '\n')
    (htext : ∀ x ∈ sub.translated_text.data, x ≠ '\n') :
    splitCh '\n' ((write_srt_block sub).data ++ rest)
      = (toString sub.index).data :: (sub.start ++ " --> " ++ sub.stop).data ::
        sub.translated_text.data :: [] :: splitCh '\n' rest := by
  have htimes : ∀ x ∈ (sub.start ++ " --> " ++ sub.stop).data, x ≠ '\n' := by
    intro x hx
    simp only [strData_append] at hx
    rcases List.mem_append.mp hx with hx' | hx'
    · rcases List.mem_append.mp hx' with hx'' | hx''
      · exact hstart x hx''
      · have : x ∈ [' ', '-', '-', '>', ' '] := hx''
        intro hc; subst hc; simp at this
    · exact hstop x hx'
  rw [write_block_data,
    splitCh_append_token '\n' _ _ hidx,
    splitCh_append_token '\n' _ _ htimes,
    splitCh_append_token '\n' _ _ htext,
    splitCh_cons_sep]

theorem write_srt_file_lines (subs : List AlignedEntry)
    (h : ∀ sub ∈ subs,
      (∀ x ∈ (toString sub.index).data, x ≠ '\n') ∧
      (∀ x ∈ sub.start.data, x ≠ '\n') ∧
      (∀ x ∈ sub.stop.data, x ≠ '\n') ∧
      (∀ x ∈ sub.translated_text.data, x ≠ '\n')) :
    lineSplit (write_srt_file subs)
      = (subs.map fun sub =>
          [toString sub.index, sub.start ++ " --> " ++ sub.stop,
           sub.translated_text, ""]).flatten ++ [""] := by
  induction subs with
  | nil => rfl
  | cons sub rest ih =>
    obtain ⟨hidx, hstart, hstop, htext⟩ := h sub (by simp)
    have hrest := ih (fun x hx => h x (by simp [hx]))
    unfold lineSplit at hrest ⊢
    show ((splitCh '\n' (write_srt_block sub ++ write_srt_file rest).data).map
      fun l => (⟨l⟩ : String)) = _
    rw [strData_append, splitCh_write_block sub _ hidx hstart hstop htext]
    simp only [List.map_cons, strMk_data, List.map_cons]
    rw [hrest]
    simp [List.flatten]

/-- C10: the translated-subtitle writer emits each aligned cue as exactly
four lines — index, timestamp range, the cue's `translated_text` verbatim
as a single text line, and a blank separator — applying no wrapping and no
character limit (a 50-character text yields a 50-character display line),
whereas the original-subtitle writer passes every cue text through
`smart_wrap`, whose lines never exceed 42 characters. -/
theorem translated_writer_no_wrap (subs : List AlignedEntry)
    (h : ∀ sub ∈ subs,
      (∀ x ∈ (toString sub.index).data, x ≠ '\n') ∧
      (∀ x ∈ sub.start.data, x ≠ '\n') ∧
      (∀ x ∈ sub.stop.data, x ≠ '\n') ∧
      (∀ x ∈ sub.translated_text.data, x ≠ '\n')) :
    lineSplit (write_srt_file subs)
      = (subs.map fun sub =>
          [toString sub.index, sub.start ++ " --> " ++ sub.stop,
           sub.translated_text, ""]).flatten ++ [""] ∧
    (∀ s : String, ∀ l ∈ smart_wrap s 42, l.length ≤ 42) ∧
    ((lineSplit (write_srt_block
        ⟨1, "00:00:00,000", "00:00:01,000", ⟨List.replicate 50 'a'⟩⟩)).getD 2 "").length
      = 50 ∧
    ¬ ((50 : Nat) ≤ 42) := by
  refine ⟨write_srt_file_lines subs h, ?_, by decide, by decide⟩
  intro s l hl
  exact (smart_wrap_bounds_all s 42).2 l hl

/-- Witness for C10 on a one-cue file with a short translated text. -/
theorem translated_writer_no_wrap_witness :
    lineSplit (write_srt_file [⟨1, "00:00:00,000", "00:00:01,000", "hola"⟩])
      = ["1", "00:00:00,000 --> 00:00:01,000", "hola", "", ""] := by
  have h := (translated_writer_no_wrap
    [⟨1, "00:00:00,000", "00:00:01,000", "hola"⟩] (by decide)).1
  rw [h]
  rfl

/-- Regression check for the falsy-`or` semantics: a word ending exactly at
time `0.0` makes Python's `(last_end_time or w["start"])` fall back to the
incoming word's start, so at the third word the duration test reads
`10 - 0 ≥ 8` and the punctuation re-split fires — the model reproduces the
code's whole-buffer flush with the duplicated word `"a"` (6 tokens for 3
input words and 2 cues), and `segResplitFree` correctly reports this run as
not re-split-free, excluding it from the token-conservation hypothesis. -/
theorem segmenter_zero_end_uses_word_start :
    group_into_sentences
        [⟨"Hi,", 0, 0, some "A"⟩, ⟨"a", 0, 0, some "A"⟩, ⟨"x", 10, 11, some "A"⟩] 1 8 =
      [⟨0, 0, "A: Hi, a"⟩, ⟨10, 11, "A: a x"⟩] ∧
    segResplitFree 1 8 initSegState
        [⟨"Hi,", 0, 0, some "A"⟩, ⟨"a", 0, 0, some "A"⟩, ⟨"x", 10, 11, some "A"⟩] = false :=
  ⟨by with_unfolding_all decide, by with_unfolding_all decide⟩
